import Mathlib

/-!
# OTTER — verification of the core editing/export behavior

Shallow embedding of the OTTER prototype (Electron main process `main.ts`,
renderer `renderer.ts`, preload `preload.ts`) together with a spec-modelled
transcript command engine, and theorems settling the frozen claims about it.

Conventions:
* JavaScript `number` values used for audio times are modelled as `ℚ`
  (the claims under scrutiny involve no rounding behavior); where NaN
  propagation matters (the `make-snippet` clamps and `computeDetailWindow`)
  JS numbers are modelled as `Option ℚ` with `none` standing for NaN.
* Fallible handlers return `Except`/`Option`.
* Filesystem reads are modelled by an oracle `String → Option FsNode`.
-/

namespace Otter

/-! ## EDL data model (from `main.ts`: `EdlEntry`, `Edl`)

`version` is a `Nat` (the TypeScript annotation says `1`, but `JSON.parse`
performs no runtime check, so any number can inhabit the field at runtime). -/

structure EdlEntry where
  id : String
  sourceStart : ℚ
  sourceEnd : ℚ
  label : String
  muted : Bool
deriving DecidableEq, Repr

structure Edl where
  version : Nat
  sourceFile : String
  entries : List EdlEntry
  createdAt : String
  modifiedAt : String
deriving DecidableEq, Repr

/-! ## `export-edl-audio` handler (from `main.ts`, lines 450–516) -/

inductive ExportError where
  | noSegments
deriving DecidableEq, Repr

/-- `const entries = (edl.entries || []).filter((e) => !e.muted);` -/
def nonMutedEntries (edl : Edl) : List EdlEntry :=
  edl.entries.filter (fun e => !e.muted)

/-- The per-segment trim ranges handed to the encoder, in concatenation
order, exactly as the `atrim=start=S:end=E` filter parts are built; the
zero-segment guard `if (entries.length === 0) throw` is the error case. -/
def exportSegments (edl : Edl) : Except ExportError (List (ℚ × ℚ)) :=
  let entries := nonMutedEntries edl
  if entries.length = 0 then .error .noSegments
  else .ok (entries.map (fun e => (e.sourceStart, e.sourceEnd)))

/-- One `filterParts` element:
`[0]atrim=start=S:end=E,asetpts=PTS-STARTPTS[aI]`.
Number-to-string rendering is modelled by `ℚ`'s `toString`. -/
def filterPart (i : Nat) (e : EdlEntry) : String :=
  "[0]atrim=start=" ++ toString e.sourceStart ++ ":end=" ++
    toString e.sourceEnd ++ ",asetpts=PTS-STARTPTS[a" ++ toString i ++ "]"

/-- One `concatInputs` element: `[aI]`. -/
def concatInput (i : Nat) : String :=
  "[a" ++ toString i ++ "]"

/-- The `filterComplex` string assembled by the handler. -/
def filterComplexOf (edl : Edl) : String :=
  let entries := nonMutedEntries edl
  String.intercalate "; " (entries.enum.map (fun p => filterPart p.1 p.2)) ++
    "; " ++ String.join (entries.enum.map (fun p => concatInput p.1)) ++
    "concat=n=" ++ toString entries.length ++ ":v=0:a=1[out]"

/-- The ffmpeg invocation the export handler spawns, together with its file
I/O footprint.  `readsFiles`/`writesFiles` transcribe the ffmpeg CLI
contract for this argument shape: the path after `-i` is opened read-only,
and the trailing output path (under `-y`) is the only path written. -/
structure FfmpegJob where
  args : List String
  readsFiles : List String
  writesFiles : List String
deriving DecidableEq, Repr

/-- `export-edl-audio`, given the parsed EDL and the user-chosen output
path from the save dialog.  Mirrors the handler: filter muted entries,
reject zero segments, then spawn ffmpeg reading `edl.sourceFile` and
writing `outPath`. -/
def exportEdlAudio (edl : Edl) (outPath : String) : Except ExportError FfmpegJob :=
  let entries := nonMutedEntries edl
  if entries.length = 0 then .error .noSegments
  else
    .ok { args := ["-hide_banner", "-y", "-i", edl.sourceFile,
                   "-filter_complex", filterComplexOf edl,
                   "-map", "[out]", "-c:a", "pcm_s16le", outPath],
          readsFiles := [edl.sourceFile],
          writesFiles := [outPath] }

/-! ## `load-edl` handler (from `main.ts`, lines 419–438)

The handler opens a picker, reads the chosen file and returns
`{ path, content }` verbatim.  The error type below lists the failures the
specification prescribes for project load; the definition shows the handler
can produce none of them. -/

inductive LoadError where
  | unsupportedSchema
  | integrityViolation
deriving DecidableEq, Repr

/-- `load-edl` given the picked path and the raw bytes read from it:
`return { path: filePath, content }` — no schema-version check, no
referential-integrity check, no parsing. -/
def loadEdl (filePath content : String) : Except LoadError (String × String) :=
  .ok (filePath, content)

end Otter

namespace Otter

/-! ## Theorems for claims C1, C2, C4, C5 -/

/-- C1 (counterexample): on an EDL with zero segments the export handler
throws `No non-muted segments to export.` instead of producing an
empty/zero-duration output, refuting the claim at segment count 0. -/
theorem exportSegments_empty_edl_errors :
    exportSegments ⟨1, "src.wav", [], "", ""⟩ = .error .noSegments := rfl

/-- C1 (amended): for an EDL with at least one non-muted entry, export
succeeds and the trim ranges handed to the encoder sum to exactly
`Σ (sourceEnd − sourceStart)` over the non-muted entries, one range per
entry; an EDL with zero non-muted entries is rejected with an error. -/
theorem exportSegments_duration (edl : Edl) (h : nonMutedEntries edl ≠ []) :
    ∃ segs, exportSegments edl = .ok segs ∧
      (segs.map (fun p => p.2 - p.1)).sum =
        ((nonMutedEntries edl).map (fun e => e.sourceEnd - e.sourceStart)).sum ∧
      segs.length = (nonMutedEntries edl).length := by
  refine ⟨(nonMutedEntries edl).map (fun e => (e.sourceStart, e.sourceEnd)), ?_, ?_, ?_⟩
  · unfold exportSegments
    simp [List.length_eq_zero, h]
  · simp only [List.map_map]
    rfl
  · simp

/-- C1 (witness): a one-entry EDL covering `[2, 5)` exports with total
segment duration `3`. -/
theorem exportSegments_duration_witness :
    ∃ segs,
      exportSegments ⟨1, "src.wav", [⟨"w0", 2, 5, "hello", false⟩], "", ""⟩ = .ok segs ∧
      (segs.map (fun p => p.2 - p.1)).sum =
        ((nonMutedEntries ⟨1, "src.wav", [⟨"w0", 2, 5, "hello", false⟩], "", ""⟩).map
          (fun e => e.sourceEnd - e.sourceStart)).sum ∧
      segs.length =
        (nonMutedEntries ⟨1, "src.wav", [⟨"w0", 2, 5, "hello", false⟩], "", ""⟩).length :=
  exportSegments_duration ⟨1, "src.wav", [⟨"w0", 2, 5, "hello", false⟩], "", ""⟩ (by decide)

/-- C2 (counterexample): nothing stops the user-chosen destination from
being the source file itself; in that case the source path is handed to
ffmpeg as the written output, so "the source audio file's contents are
never modified by any export operation" fails as stated. -/
theorem export_can_write_source :
    ∃ job, exportEdlAudio ⟨1, "/music/src.wav", [⟨"w0", 0, 1, "hi", false⟩], "", ""⟩
        "/music/src.wav" = .ok job ∧
      "/music/src.wav" ∈ job.writesFiles := by
  refine ⟨_, rfl, ?_⟩
  simp

/-- C2 (amended): export only reads the source file and only writes the
user-chosen destination; provided that destination differs from the source
path, the source file is never among the written paths. -/
theorem export_io_footprint (edl : Edl) (outPath : String) (job : FfmpegJob)
    (hne : outPath ≠ edl.sourceFile)
    (h : exportEdlAudio edl outPath = .ok job) :
    job.readsFiles = [edl.sourceFile] ∧ job.writesFiles = [outPath] ∧
      edl.sourceFile ∉ job.writesFiles := by
  unfold exportEdlAudio at h
  by_cases hlen : (nonMutedEntries edl).length = 0
  · simp [hlen] at h
  · simp only [hlen, if_false, Except.ok.injEq] at h
    subst h
    refine ⟨rfl, rfl, ?_⟩
    simp [Ne.symm hne]

/-- C2 (witness): exporting a one-entry EDL of `/music/src.wav` to
`/music/out.wav` reads only the source and writes only the destination. -/
theorem export_io_footprint_witness :
    ∃ job, exportEdlAudio ⟨1, "/music/src.wav", [⟨"w0", 0, 1, "hi", false⟩], "", ""⟩
        "/music/out.wav" = .ok job ∧
      job.readsFiles = ["/music/src.wav"] ∧ job.writesFiles = ["/music/out.wav"] ∧
      "/music/src.wav" ∉ job.writesFiles := by
  obtain ⟨job, hjob⟩ :
      ∃ job, exportEdlAudio ⟨1, "/music/src.wav", [⟨"w0", 0, 1, "hi", false⟩], "", ""⟩
        "/music/out.wav" = .ok job := ⟨_, rfl⟩
  exact ⟨job, hjob, export_io_footprint _ "/music/out.wav" _ (by decide) hjob⟩

/-- C4: export is deterministic in the EDL entries: two EDLs with
identical `entries` yield identical trim-range lists and an identical
`filter_complex` string (hence byte-identical segment boundaries handed to
the encoder). -/
theorem export_deterministic (e1 e2 : Edl) (h : e1.entries = e2.entries) :
    exportSegments e1 = exportSegments e2 ∧ filterComplexOf e1 = filterComplexOf e2 := by
  have hnm : nonMutedEntries e1 = nonMutedEntries e2 := by
    unfold nonMutedEntries; rw [h]
  constructor
  · unfold exportSegments; rw [hnm]
  · unfold filterComplexOf; rw [hnm]

/-- C4 (witness): two EDLs equal in `entries` but differing in metadata
(`createdAt`) produce identical segments and filter strings. -/
theorem export_deterministic_witness :
    exportSegments ⟨1, "s.wav", [⟨"w0", 0, 2, "a", false⟩], "t1", "t1"⟩ =
      exportSegments ⟨1, "s.wav", [⟨"w0", 0, 2, "a", false⟩], "t2", "t2"⟩ ∧
    filterComplexOf ⟨1, "s.wav", [⟨"w0", 0, 2, "a", false⟩], "t1", "t1"⟩ =
      filterComplexOf ⟨1, "s.wav", [⟨"w0", 0, 2, "a", false⟩], "t2", "t2"⟩ :=
  export_deterministic _ _ rfl

/-- C5 (counterexample): loading content that declares an unsupported
schema (or is not even JSON) succeeds verbatim — no `UnsupportedSchema`
failure — and the export path accepts a parsed EDL of version 999. -/
theorem load_skips_schema_check :
    loadEdl "p.json" "schemaVersion 999 garbage" =
      .ok ("p.json", "schemaVersion 999 garbage") ∧
    exportSegments ⟨999, "s.wav", [⟨"w0", 0, 2, "a", false⟩], "", ""⟩ =
      .ok [(0, 2)] := ⟨rfl, rfl⟩

/-- C5 (amended): the load path performs no validation at all: `load-edl`
returns the chosen file's raw content unconditionally (it can produce
neither `UnsupportedSchema` nor an integrity failure), and the export
handler's behavior is independent of the EDL's version field. -/
theorem load_returns_raw_content (p c : String) (edl : Edl) (v : Nat) :
    loadEdl p c = .ok (p, c) ∧
    exportSegments { edl with version := v } = exportSegments edl := by
  constructor
  · rfl
  · unfold exportSegments nonMutedEntries
    rfl

end Otter

namespace Otter

/-! ## JavaScript number arithmetic with NaN (for `make-snippet` and
`computeDetailWindow`)

`JNum` is a JS `number` restricted to the values these code paths see:
`some q` is a finite value, `none` is NaN (non-numeric inputs become NaN
under `Number(...)`). -/

abbrev JNum := Option ℚ

/-- JS `a + b` (NaN-propagating). -/
def jAdd : JNum → JNum → JNum
  | some a, some b => some (a + b)
  | _, _ => none

/-- JS `a - b` (NaN-propagating). -/
def jSub : JNum → JNum → JNum
  | some a, some b => some (a - b)
  | _, _ => none

/-- JS `Math.max(a, b)` — NaN if either argument is NaN. -/
def jMax : JNum → JNum → JNum
  | some a, some b => some (max a b)
  | _, _ => none

/-- JS `v || d`: `d` when `v` is falsy (NaN or zero), else `v`. -/
def jOrDefault (v d : JNum) : JNum :=
  match v with
  | none => d
  | some q => if q = 0 then d else some q

/-- JS `a >= b` as a boolean: false whenever either side is NaN. -/
def jGe : JNum → JNum → Bool
  | some a, some b => decide (b ≤ a)
  | _, _ => false

/-! ### `make-snippet` handler clamps (from `main.ts`, lines 331–377;
identical in `main.js`) -/

/-- `const safeStart = Math.max(0, Number(startSec) || 0);` -/
def safeStart (startSec : JNum) : JNum :=
  jMax (some 0) (jOrDefault startSec (some 0))

/-- `const safeDur = Math.max(0.05, Number(durSec) || 0.05);` -/
def safeDur (durSec : JNum) : JNum :=
  jMax (some (1/20)) (jOrDefault durSec (some (1/20)))

/-! ### `computeDetailWindow` (from `renderer.ts`, lines 225–230) -/

def DETAIL_PAD_BEFORE : ℚ := 1/4

def DETAIL_PAD_AFTER : ℚ := 1/4

/-- `winStart = Math.max(0, start - DETAIL_PAD_BEFORE);`
`winEnd = Math.max(winStart + 0.05, end + DETAIL_PAD_AFTER);`
returns `(winStart, winEnd, winDur)` with `winDur = winEnd - winStart`. -/
def computeDetailWindow (start stop : JNum) : JNum × JNum × JNum :=
  let winStart := jMax (some 0) (jSub start (some DETAIL_PAD_BEFORE))
  let winEnd := jMax (jAdd winStart (some (1/20))) (jAdd stop (some DETAIL_PAD_AFTER))
  (winStart, winEnd, jSub winEnd winStart)

/-! ### Theorems for claim C8 -/

/-- C8 (counterexample): a NaN word-start (e.g. a transcript entry whose
`start` is non-numeric) makes `computeDetailWindow` return a NaN
`winStart`, so `winStart >= 0` is false: the detail-window computation does
not satisfy the claimed bounds on NaN input (`Math.max(0, NaN)` is NaN). -/
theorem computeDetailWindow_nan_start :
    (computeDetailWindow none (some 1)).1 = none ∧
    jGe (computeDetailWindow none (some 1)).1 (some 0) = false := ⟨rfl, rfl⟩

/-- C8 (amended): the `make-snippet` handler always invokes ffmpeg with a
start `≥ 0` and a duration `≥ 0.05`, for every input including negative,
zero and NaN/non-numeric values; the detail-window computation yields
`winStart ≥ 0` and `winDur ≥ 0.05` for all *finite* start/end inputs, but
propagates NaN when a word boundary is NaN. -/
theorem snippet_clamps_safe :
    (∀ startSec durSec : JNum,
      ∃ qs qd, safeStart startSec = some qs ∧ 0 ≤ qs ∧
        safeDur durSec = some qd ∧ 1/20 ≤ qd) ∧
    (∀ s e : ℚ,
      ∃ ws we wd, computeDetailWindow (some s) (some e) = (some ws, some we, some wd) ∧
        0 ≤ ws ∧ 1/20 ≤ wd) := by
  constructor
  · intro startSec durSec
    have hs : ∃ qs, safeStart startSec = some qs ∧ 0 ≤ qs := by
      cases startSec with
      | none => exact ⟨max 0 0, rfl, le_max_left _ _⟩
      | some q =>
        by_cases hq : q = 0
        · exact ⟨max 0 0, by simp [safeStart, jOrDefault, jMax, hq], le_max_left _ _⟩
        · exact ⟨max 0 q, by simp [safeStart, jOrDefault, jMax, hq], le_max_left _ _⟩
    have hd : ∃ qd, safeDur durSec = some qd ∧ 1/20 ≤ qd := by
      cases durSec with
      | none => exact ⟨max (1/20) (1/20), rfl, le_max_left _ _⟩
      | some q =>
        by_cases hq : q = 0
        · exact ⟨max (1/20) (1/20), by simp [safeDur, jOrDefault, jMax, hq], le_max_left _ _⟩
        · exact ⟨max (1/20) q, by simp [safeDur, jOrDefault, jMax, hq], le_max_left _ _⟩
    obtain ⟨qs, hqs, hqs0⟩ := hs
    obtain ⟨qd, hqd, hqd0⟩ := hd
    exact ⟨qs, qd, hqs, hqs0, hqd, hqd0⟩
  · intro s e
    refine ⟨max 0 (s - DETAIL_PAD_BEFORE),
      max (max 0 (s - DETAIL_PAD_BEFORE) + 1/20) (e + DETAIL_PAD_AFTER),
      max (max 0 (s - DETAIL_PAD_BEFORE) + 1/20) (e + DETAIL_PAD_AFTER) -
        max 0 (s - DETAIL_PAD_BEFORE), rfl, le_max_left _ _, ?_⟩
    have h1 : max 0 (s - DETAIL_PAD_BEFORE) + 1/20 ≤
        max (max 0 (s - DETAIL_PAD_BEFORE) + 1/20) (e + DETAIL_PAD_AFTER) :=
      le_max_left _ _
    linarith

/-! ## Playback active-word scan (from `renderer.ts` `ws.on("timeupdate")`,
lines 386–414; the identical scan appears in `renderer.js`, lines 278–306)

Transcript word timings are finite numbers here (`TranscriptWord.start`
and `.end`); `end` being a reserved word, the field is named `stop`. -/

structure TranscriptWord where
  word : String
  start : ℚ
  stop : ℚ
deriving DecidableEq, Repr

/-- The 10 ms forward bias applied before comparing against word
boundaries: `const te = t + 0.01; // 10ms bias`.  The same single value is
used by the scan in both renderer versions. -/
def tenMsBias : ℚ := 1/100

/-- The loop body: first index `i` (from the front) with
`te >= words[i].start && te < words[i].end`, if any. -/
def scanFirstContaining (te : ℚ) : List TranscriptWord → Option Nat
  | [] => none
  | w :: rest =>
    if w.start ≤ te ∧ te < w.stop then some 0
    else (scanFirstContaining te rest).map (· + 1)

/-- The whole handler's word lookup: `-1` when no span contains the biased
time, else the first containing index. -/
def activeWordIndex (words : List TranscriptWord) (t : ℚ) : Int :=
  match scanFirstContaining (t + tenMsBias) words with
  | some i => (i : Int)
  | none => -1

/-- Helper predicate: word `w`'s span contains the biased time. -/
def spanContains (w : TranscriptWord) (te : ℚ) : Prop :=
  w.start ≤ te ∧ te < w.stop

instance (w : TranscriptWord) (te : ℚ) : Decidable (spanContains w te) := by
  unfold spanContains; infer_instance

theorem scanFirstContaining_none (te : ℚ) (words : List TranscriptWord)
    (h : scanFirstContaining te words = none) :
    ∀ w ∈ words, ¬ spanContains w te := by
  induction words with
  | nil => intro w hw; cases hw
  | cons w rest ih =>
    intro v hv
    unfold scanFirstContaining at h
    by_cases hc : w.start ≤ te ∧ te < w.stop
    · rw [if_pos hc] at h
      cases h
    · rw [if_neg hc] at h
      cases hrest : scanFirstContaining te rest with
      | none =>
        rcases List.mem_cons.mp hv with hv | hv
        · subst hv; exact hc
        · exact ih hrest v hv
      | some i0 =>
        rw [hrest] at h
        cases h

theorem scanFirstContaining_some (te : ℚ) (words : List TranscriptWord)
    (i : Nat) (h : scanFirstContaining te words = some i) :
    ∃ hi : i < words.length,
      spanContains (words.get ⟨i, hi⟩) te ∧
      ∀ j, ∀ hj : j < i, ¬ spanContains (words.get ⟨j, Nat.lt_trans hj hi⟩) te := by
  induction words generalizing i with
  | nil => cases h
  | cons w rest ih =>
    unfold scanFirstContaining at h
    by_cases hc : w.start ≤ te ∧ te < w.stop
    · rw [if_pos hc] at h
      cases h
      exact ⟨Nat.succ_pos _, hc, fun j hj => absurd hj (Nat.not_lt_zero j)⟩
    · rw [if_neg hc] at h
      cases hrest : scanFirstContaining te rest with
      | none =>
        rw [hrest] at h
        cases h
      | some i0 =>
        rw [hrest] at h
        cases h
        obtain ⟨hlt, hcontains, hfirst⟩ := ih i0 hrest
        refine ⟨Nat.succ_lt_succ hlt, hcontains, ?_⟩
        intro j hj
        cases j with
        | zero => exact hc
        | succ j0 => exact hfirst j0 (Nat.lt_of_succ_lt_succ hj)

/-- C7: for every playback time `t` and word list, the timeupdate scan
returns the index of the first word in order whose span contains
`t + tenMsBias` (i.e. `start ≤ t + bias < end`), and `-1` (no word) when
no span contains it; the bias is the single constant `tenMsBias = 0.01`
shared by both renderers' scans. -/
theorem activeWordIndex_spec (words : List TranscriptWord) (t : ℚ) :
    (activeWordIndex words t = -1 ∧
      ∀ w ∈ words, ¬ spanContains w (t + tenMsBias)) ∨
    (∃ i, ∃ hi : i < words.length, activeWordIndex words t = (i : Int) ∧
      spanContains (words.get ⟨i, hi⟩) (t + tenMsBias) ∧
      ∀ j, ∀ hj : j < i,
        ¬ spanContains (words.get ⟨j, Nat.lt_trans hj hi⟩) (t + tenMsBias)) := by
  unfold activeWordIndex
  cases hscan : scanFirstContaining (t + tenMsBias) words with
  | none =>
    exact Or.inl ⟨rfl, scanFirstContaining_none _ _ hscan⟩
  | some i =>
    obtain ⟨hi, hcontains, hfirst⟩ := scanFirstContaining_some _ _ _ hscan
    exact Or.inr ⟨i, hi, rfl, hcontains, hfirst⟩

/-! ## Transcript selection state (from `renderer.ts`:
`normalizeRange` line 170, `setSelectionRange` lines 199–220) -/

structure SelState where
  selectionStart : Option Int
  selectionEnd : Option Int
  selectionAnchor : Option Int
deriving DecidableEq, Repr

/-- One rendered `.word` element: its `dataset.index` and whether the
`selected` CSS class is present. -/
structure WordEl where
  index : Int
  selected : Bool
deriving DecidableEq, Repr

/-- `normalizeRange(a, b)`: order the two endpoints. -/
def normalizeRange (a b : Int) : Int × Int :=
  if a ≤ b then (a, b) else (b, a)

/-- `setSelectionRange(start, end)`: update the three selection variables,
then toggle the `selected` class on every word element according to
`idx >= selectionStart && idx <= selectionEnd`. -/
def setSelectionRange (st : SelState) (els : List WordEl)
    (start? end? : Option Int) : SelState × List WordEl :=
  let st' : SelState :=
    match start?, end? with
    | some s, some e =>
      let r := normalizeRange s e
      { selectionStart := some r.1, selectionEnd := some r.2,
        selectionAnchor := st.selectionAnchor }
    | _, _ => ⟨none, none, none⟩
  let els' := els.map (fun el =>
    { el with selected :=
        match st'.selectionStart, st'.selectionEnd with
        | some a, some b => decide (a ≤ el.index ∧ el.index ≤ b)
        | _, _ => false })
  (st', els')

/-- C10: after any call to `setSelectionRange`, either all three selection
variables are `null`, or `selectionStart ≤ selectionEnd` and a word element
carries the `selected` class exactly when its index lies in
`[selectionStart, selectionEnd]`. -/
theorem setSelectionRange_invariant (st : SelState) (els : List WordEl)
    (start? end? : Option Int) :
    ((setSelectionRange st els start? end?).1.selectionStart = none ∧
      (setSelectionRange st els start? end?).1.selectionEnd = none ∧
      (setSelectionRange st els start? end?).1.selectionAnchor = none) ∨
    (∃ a b, (setSelectionRange st els start? end?).1.selectionStart = some a ∧
      (setSelectionRange st els start? end?).1.selectionEnd = some b ∧ a ≤ b ∧
      ∀ el ∈ (setSelectionRange st els start? end?).2,
        el.selected = true ↔ (a ≤ el.index ∧ el.index ≤ b)) := by
  cases start? with
  | none => exact Or.inl ⟨rfl, rfl, rfl⟩
  | some s =>
    cases end? with
    | none => exact Or.inl ⟨rfl, rfl, rfl⟩
    | some e =>
      refine Or.inr ⟨(normalizeRange s e).1, (normalizeRange s e).2, rfl, rfl, ?_, ?_⟩
      · unfold normalizeRange
        by_cases hle : s ≤ e
        · rw [if_pos hle]
          exact hle
        · rw [if_neg hle]
          exact le_of_lt (lt_of_not_le hle)
      · intro el hel
        simp only [setSelectionRange, List.mem_map] at hel
        obtain ⟨el0, _, hel0⟩ := hel
        subst hel0
        simp

end Otter

namespace Otter

/-! ## `read-spec-file` handler (from `main.ts`, lines 280–295; identical
in the other main-process version)

The filesystem is an oracle from absolute paths to nodes; `readFileSync`
succeeds only on file nodes (reading a directory throws `EISDIR`). -/

inductive FsNode where
  | file (content : String)
  | dir
deriving DecidableEq, Repr

abbrev Fs := String → Option FsNode

/-- `fs.existsSync`. -/
def existsSyncM (fs : Fs) (p : String) : Bool :=
  (fs p).isSome

/-- `fs.readFileSync(p, "utf-8")`: content of a file node, failure
otherwise. -/
def readFileSyncM (fs : Fs) (p : String) : Option String :=
  match fs p with
  | some (.file c) => some c
  | _ => none

/-- Whether an `fs` lookup result is a readable file. -/
def isFileNode : Option FsNode → Bool
  | some (.file _) => true
  | _ => false

/-- Node `path.posix.basename`: drop trailing slashes, then take the final
slash-free component. -/
def posixBasename (p : String) : String :=
  let r := p.data.reverse.dropWhile (fun c => c = '/')
  String.mk (r.takeWhile (fun c => c ≠ '/')).reverse

/-- Node `path.join(dir, name)` specialised to a slash-free `name` (the
only shape reaching it in the handler): normalization sends `""` and `"."`
to `dir` itself and `".."` to `dir`'s parent. -/
def joinSpecDir (dir name : String) : String :=
  if name = "" then dir
  else if name = "." then dir
  else if name = ".." then parentDir dir
  else dir ++ "/" ++ name
where
  /-- Parent directory of an absolute path: strip the last component. -/
  parentDir (p : String) : String :=
    match p.data.reverse.dropWhile (fun c => c ≠ '/') with
    | [] => "."
    | _ :: rest => String.mk rest.reverse

inductive SpecFileError where
  | invalidName
  | notFound
  | readFailed
deriving DecidableEq, Repr

/-- The `read-spec-file` handler: reject a name that differs from its own
basename before touching the filesystem, then check existence and read. -/
def readSpecFile (dir : String) (fs : Fs) (name : String) :
    Except SpecFileError String :=
  if posixBasename name ≠ name then .error .invalidName
  else
    let fullPath := joinSpecDir dir name
    if existsSyncM fs fullPath then
      match readFileSyncM fs fullPath with
      | some c => .ok c
      | none => .error .readFailed
    else .error .notFound

/-- The basename never contains a slash. -/
theorem posixBasename_no_slash (p : String) : '/' ∉ (posixBasename p).data := by
  intro hmem
  unfold posixBasename at hmem
  simp only [String.data] at hmem
  rw [List.mem_reverse] at hmem
  have := List.takeWhile_prefix (l := p.data.reverse.dropWhile (fun c => c = '/'))
    (p := fun c => decide (c ≠ '/'))
  have hsat := List.mem_takeWhile_imp hmem
  simp at hsat

/-- C9: (i) any requested name that is not its own basename is rejected
with `invalidName` before any filesystem access (the result does not
depend on `fs` at all); (ii) a successful read implies the name passed the
basename guard, contains no slash, is none of `""`/`"."`/`".."` (those
resolve to directories, which cannot be read), and the returned content is
exactly the file directly inside the spec directory at `dir ++ "/" ++
name`.  The hypotheses say that `dir` and its parent are not regular
files, as is the case for real directories. -/
theorem readSpecFile_safe (dir : String) (fs : Fs) (name content : String)
    (hdir : isFileNode (fs dir) = false)
    (hparent : isFileNode (fs (joinSpecDir.parentDir dir)) = false) :
    (posixBasename name ≠ name →
      (∀ fs' : Fs, readSpecFile dir fs' name = .error .invalidName)) ∧
    (readSpecFile dir fs name = .ok content →
      '/' ∉ name.data ∧ name ≠ "" ∧ name ≠ "." ∧ name ≠ ".." ∧
      readFileSyncM fs (dir ++ "/" ++ name) = some content) := by
  constructor
  · intro hbad fs'
    unfold readSpecFile
    rw [if_pos hbad]
  · intro hok
    unfold readSpecFile at hok
    by_cases hbn : posixBasename name ≠ name
    · rw [if_pos hbn] at hok
      cases hok
    · rw [if_neg hbn] at hok
      push_neg at hbn
      have hnoslash : '/' ∉ name.data := by
        rw [← hbn]
        exact posixBasename_no_slash name
      have hread : readFileSyncM fs (joinSpecDir dir name) = some content := by
        by_cases hex : existsSyncM fs (joinSpecDir dir name)
        · rw [if_pos hex] at hok
          cases hr : readFileSyncM fs (joinSpecDir dir name) with
          | none => rw [hr] at hok; cases hok
          | some c =>
            rw [hr] at hok
            cases hok
            rfl
        · rw [if_neg hex] at hok
          cases hok
      have hfile_of : ∀ p, readFileSyncM fs p = some content → isFileNode (fs p) = true := by
        intro p hp
        unfold readFileSyncM at hp
        unfold isFileNode
        cases hfp : fs p with
        | none => rw [hfp] at hp; cases hp
        | some node =>
          cases node with
          | file c => rfl
          | dir => rw [hfp] at hp; cases hp
      have hne : name ≠ "" ∧ name ≠ "." ∧ name ≠ ".." := by
        refine ⟨?_, ?_, ?_⟩
        · intro h0
          rw [h0] at hread
          have hj : joinSpecDir dir "" = dir := by simp [joinSpecDir]
          rw [hj] at hread
          rw [hfile_of dir hread] at hdir
          cases hdir
        · intro h0
          rw [h0] at hread
          have hj : joinSpecDir dir "." = dir := by simp [joinSpecDir]
          rw [hj] at hread
          rw [hfile_of dir hread] at hdir
          cases hdir
        · intro h0
          rw [h0] at hread
          have hj : joinSpecDir dir ".." = joinSpecDir.parentDir dir := by
            simp [joinSpecDir]
          rw [hj] at hread
          rw [hfile_of _ hread] at hparent
          cases hparent
      obtain ⟨h1, h2, h3⟩ := hne
      refine ⟨hnoslash, h1, h2, h3, ?_⟩
      rw [← hread]
      congr 1
      simp only [joinSpecDir, if_neg h1, if_neg h2, if_neg h3]

/-- A one-file demo filesystem: the spec directory `/r/specs` holding
`default_spec.json`, its parent `/r`, nothing else. -/
def specFsDemo : Fs := fun p =>
  if p = "/r/specs/default_spec.json" then some (.file "spec-content")
  else if p = "/r/specs" then some .dir
  else if p = "/r" then some .dir
  else none

/-- C9 (witness): on the demo filesystem the traversal name `../secret`
is rejected independently of the filesystem, and the successful read of
`default_spec.json` returns exactly that direct child's content. -/
theorem readSpecFile_safe_witness :
    (∀ fs' : Fs, readSpecFile "/r/specs" fs' "../secret" = .error .invalidName) ∧
    ('/' ∉ "default_spec.json".data ∧ "default_spec.json" ≠ "" ∧
      "default_spec.json" ≠ "." ∧ "default_spec.json" ≠ ".." ∧
      readFileSyncM specFsDemo ("/r/specs" ++ "/" ++ "default_spec.json") =
        some "spec-content") :=
  ⟨(readSpecFile_safe "/r/specs" specFsDemo "../secret" "" (by decide)
      (by decide)).1 (by decide),
   (readSpecFile_safe "/r/specs" specFsDemo "default_spec.json" "spec-content"
      (by decide) (by decide)).2 rfl⟩

end Otter

namespace Otter

/-! ## Transcript document and command engine

Modelled from the spec: the repository under verification is a read-only
prototype; the `TranscriptDocument`, `CommandEngine`/`UndoManager` and
their command variants described by the specification (§3, §4.2, §4.3)
have no implementation in the sources, so they are modelled here from the
specification's words: an id-keyed word map plus an ordering list,
commands as a closed sum with one case per operation and a composite case,
each apply capturing exactly the data needed to reverse itself, and
undo/redo stacks.  Span-coverage policy is the spec's default (permissive:
no neighbor bookkeeping), and `insertRange` additionally validates its
index, as all operations must "never leave the document in a state
violating §3 invariants". -/

abbrev WordId := Nat

/-- A word record: stable id lives in the map key; `startSample < endSample`
is the span invariant validated by SpanModel. -/
structure TWord where
  text : String
  startSample : Nat
  endSample : Nat
deriving DecidableEq, Repr

/-- `{ wordsById: Map<WordId, Word>, order: WordId[] }`; the map is an
insertion-ordered association list so that "byte-identical" restoration is
plain structural equality. -/
structure TranscriptDocument where
  wordsById : List (WordId × TWord)
  order : List WordId
deriving DecidableEq, Repr

def wordKeys (m : List (WordId × TWord)) : List WordId :=
  m.map Prod.fst

/-- First binding of `id` in the map. -/
def lookupWord (m : List (WordId × TWord)) (id : WordId) : Option TWord :=
  match m with
  | [] => none
  | (k, w) :: rest => if k = id then some w else lookupWord rest id

/-- Replace the first binding of `id` (map update). -/
def replaceWord (m : List (WordId × TWord)) (id : WordId) (w' : TWord) :
    List (WordId × TWord) :=
  match m with
  | [] => []
  | (k, w) :: rest =>
    if k = id then (k, w') :: rest else (k, w) :: replaceWord rest id w'

/-- Keep only bindings whose key is outside `ks`. -/
def removeKeys (m : List (WordId × TWord)) (ks : List WordId) :
    List (WordId × TWord) :=
  m.filter (fun kw => decide (kw.1 ∉ ks))

/-- Append the entries of `nw` whose key is not yet bound (tombstoned or
live); later duplicates of a just-added key are skipped too. -/
def addFresh (m : List (WordId × TWord)) : List (WordId × TWord) → List (WordId × TWord)
  | [] => []
  | (k, w) :: rest =>
    if k ∈ wordKeys m then addFresh m rest
    else (k, w) :: addFresh (m ++ [(k, w)]) rest

inductive DocError where
  | indexOutOfRange
  | duplicateWordId
  | invalidSpan
  | unknownWord
deriving DecidableEq, Repr

/-- `deleteRange(startIndex, count)`: splice `count` ids out of `order`;
word records are tombstoned (kept in `wordsById`).  Returns the removed
ids for the caller's undo command. -/
def deleteRange (doc : TranscriptDocument) (startIndex count : Nat) :
    Except DocError (TranscriptDocument × List WordId) :=
  if startIndex + count ≤ doc.order.length then
    .ok ({ doc with order := doc.order.take startIndex ++ doc.order.drop (startIndex + count) },
         (doc.order.drop startIndex).take count)
  else .error .indexOutOfRange

/-- `insertRange(index, ids, newWordsById?)`: add any new word records
first, then splice `ids` into `order`; fails with `DuplicateWordId` if an
id is already present in `order`.  Returns the keys of the records
actually added (needed to reverse the map growth exactly). -/
def insertRange (doc : TranscriptDocument) (index : Nat) (ids : List WordId)
    (newWords : List (WordId × TWord)) :
    Except DocError (TranscriptDocument × List WordId) :=
  if index ≤ doc.order.length then
    if ∀ i ∈ ids, i ∉ doc.order then
      let fresh := addFresh doc.wordsById newWords
      .ok ({ wordsById := doc.wordsById ++ fresh,
             order := doc.order.take index ++ ids ++ doc.order.drop index },
           wordKeys fresh)
    else .error .duplicateWordId
  else .error .indexOutOfRange

/-- `moveRange(fromIndex, count, toIndex)`: remove a contiguous block then
reinsert it, `toIndex` interpreted against the array after removal. -/
def moveRange (doc : TranscriptDocument) (fromIndex count toIndex : Nat) :
    Except DocError TranscriptDocument :=
  if fromIndex + count ≤ doc.order.length then
    let block := (doc.order.drop fromIndex).take count
    let rest := doc.order.take fromIndex ++ doc.order.drop (fromIndex + count)
    if toIndex ≤ rest.length then
      .ok { doc with order := rest.take toIndex ++ block ++ rest.drop toIndex }
    else .error .indexOutOfRange
  else .error .indexOutOfRange

/-- `updateSpan(wordId, newSpan)` under the permissive coverage policy:
validate the span, then update the word; returns the prior record so the
caller can capture `beforeSpan` verbatim. -/
def updateSpan (doc : TranscriptDocument) (id : WordId) (newStart newEnd : Nat) :
    Except DocError (TranscriptDocument × TWord) :=
  match lookupWord doc.wordsById id with
  | none => .error .unknownWord
  | some w =>
    if newStart < newEnd then
      .ok ({ doc with wordsById :=
               replaceWord doc.wordsById id { w with startSample := newStart, endSample := newEnd } },
           w)
    else .error .invalidSpan

/-- `updateText(wordId, newText)`: pure text replacement. -/
def updateText (doc : TranscriptDocument) (id : WordId) (newText : String) :
    Except DocError (TranscriptDocument × TWord) :=
  match lookupWord doc.wordsById id with
  | none => .error .unknownWord
  | some w =>
    .ok ({ doc with wordsById := replaceWord doc.wordsById id { w with text := newText } }, w)

/-- The closed command sum (§3): one case per operation plus `composite`
for transactions. -/
inductive Command where
  | deleteWords (startIndex count : Nat)
  | insertWords (index : Nat) (ids : List WordId) (newWords : List (WordId × TWord))
  | moveWords (fromIndex count toIndex : Nat)
  | updateWordSpan (id : WordId) (newStart newEnd : Nat)
  | updateWordText (id : WordId) (newText : String)
  | composite (cmds : List Command)
deriving Repr

/-- The reverse data captured by a successful apply — exactly what is
needed to restore the prior state without recomputation. -/
inductive UndoRec where
  | reinsert (index : Nat) (ids : List WordId)
  | removeInserted (index count : Nat) (addedIds : List WordId)
  | moveBack (fromIndex count toIndex : Nat)
  | restoreSpan (id : WordId) (beforeStart beforeEnd : Nat)
  | restoreText (id : WordId) (beforeText : String)
  | compositeRec (recs : List UndoRec)
deriving Repr

mutual

/-- Forward mutation: on success returns the mutated document and the
captured reverse data.  On any failure the document is unchanged (the
spec's "rejected in full, no partial application"): a failing composite
sub-command fails the whole composite. -/
def applyCmd (doc : TranscriptDocument) : Command → Except DocError (TranscriptDocument × UndoRec)
  | .deleteWords startIndex count =>
    match deleteRange doc startIndex count with
    | .error e => .error e
    | .ok (d, removed) => .ok (d, .reinsert startIndex removed)
  | .insertWords index ids newWords =>
    match insertRange doc index ids newWords with
    | .error e => .error e
    | .ok (d, addedIds) => .ok (d, .removeInserted index ids.length addedIds)
  | .moveWords fromIndex count toIndex =>
    match moveRange doc fromIndex count toIndex with
    | .error e => .error e
    | .ok d => .ok (d, .moveBack toIndex count fromIndex)
  | .updateWordSpan id newStart newEnd =>
    match updateSpan doc id newStart newEnd with
    | .error e => .error e
    | .ok (d, w) => .ok (d, .restoreSpan id w.startSample w.endSample)
  | .updateWordText id newText =>
    match updateText doc id newText with
    | .error e => .error e
    | .ok (d, w) => .ok (d, .restoreText id w.text)
  | .composite cmds =>
    match applyCmds doc cmds with
    | .error e => .error e
    | .ok (d, recs) => .ok (d, .compositeRec recs)

/-- Apply a command list in order, collecting reverse records
positionally. -/
def applyCmds (doc : TranscriptDocument) : List Command → Except DocError (TranscriptDocument × List UndoRec)
  | [] => .ok (doc, [])
  | c :: cs =>
    match applyCmd doc c with
    | .error e => .error e
    | .ok (d1, r) =>
      match applyCmds d1 cs with
      | .error e => .error e
      | .ok (d2, rs) => .ok (d2, r :: rs)

end

mutual

/-- Reverse mutation: restore captured prior values exactly (total —
correct restoration is proved under the corresponding apply-success
hypothesis). -/
def unapplyRec (doc : TranscriptDocument) : UndoRec → TranscriptDocument
  | .reinsert index ids =>
    { doc with order := doc.order.take index ++ ids ++ doc.order.drop index }
  | .removeInserted index count addedIds =>
    { wordsById := removeKeys doc.wordsById addedIds,
      order := doc.order.take index ++ doc.order.drop (index + count) }
  | .moveBack fromIndex count toIndex =>
    let block := (doc.order.drop fromIndex).take count
    let rest := doc.order.take fromIndex ++ doc.order.drop (fromIndex + count)
    { doc with order := rest.take toIndex ++ block ++ rest.drop toIndex }
  | .restoreSpan id s e =>
    match lookupWord doc.wordsById id with
    | none => doc
    | some w =>
      { doc with wordsById := replaceWord doc.wordsById id { w with startSample := s, endSample := e } }
  | .restoreText id t =>
    match lookupWord doc.wordsById id with
    | none => doc
    | some w =>
      { doc with wordsById := replaceWord doc.wordsById id { w with text := t } }
  | .compositeRec recs => unapplyRecs doc recs

/-- Unapply positional records of a composite: last applied, first
reversed. -/
def unapplyRecs (doc : TranscriptDocument) : List UndoRec → TranscriptDocument
  | [] => doc
  | r :: rs => unapplyRec (unapplyRecs doc rs) r

end

/-- The engine state: document, undo stack (command with its captured
reverse data) and redo stack. -/
structure Engine where
  doc : TranscriptDocument
  undoStack : List (Command × UndoRec)
  redoStack : List Command

inductive EngineError where
  | nothingToUndo
  | nothingToRedo
  | docFailure (e : DocError)
deriving Repr

/-- `apply(cmd)`: forward mutation, push onto `undoStack`, clear
`redoStack`. -/
def applyEngine (s : Engine) (c : Command) : Except EngineError Engine :=
  match applyCmd s.doc c with
  | .error e => .error (.docFailure e)
  | .ok (d, r) => .ok ⟨d, (c, r) :: s.undoStack, []⟩

/-- `undo()`: fail with `NothingToUndo` on an empty stack, else pop,
reverse, push the command to `redoStack`. -/
def undoEngine (s : Engine) : Except EngineError Engine :=
  match s.undoStack with
  | [] => .error .nothingToUndo
  | (c, r) :: rest => .ok ⟨unapplyRec s.doc r, rest, c :: s.redoStack⟩

/-- `redo()`: symmetric; re-applies the most recently undone command. -/
def redoEngine (s : Engine) : Except EngineError Engine :=
  match s.redoStack with
  | [] => .error .nothingToRedo
  | c :: rest =>
    match applyCmd s.doc c with
    | .error e => .error (.docFailure e)
    | .ok (d, r) => .ok ⟨d, (c, r) :: s.undoStack, rest⟩

/-- Run a sequence of commands through the engine. -/
def runCommands (s : Engine) : List Command → Except EngineError Engine
  | [] => .ok s
  | c :: cs =>
    match applyEngine s c with
    | .error e => .error e
    | .ok s' => runCommands s' cs

end Otter

namespace Otter

/-! ### Splice arithmetic and association-list lemmas for undo exactness -/

/-- Removing a block and putting it back at the same index is the
identity. -/
theorem splice_reassemble {α : Type} (o : List α) (s c : Nat) :
    o.take s ++ (o.drop s).take c ++ o.drop (s + c) = o := by
  rw [List.append_assoc, List.drop_take_append_drop, List.take_append_drop]

theorem take_of_take_append {α : Type} (o tail : List α) (s : Nat)
    (h : s ≤ o.length) : (o.take s ++ tail).take s = o.take s :=
  List.take_left' (by rw [List.length_take]; exact Nat.min_eq_left h)

theorem drop_of_take_append {α : Type} (o tail : List α) (s : Nat)
    (h : s ≤ o.length) : (o.take s ++ tail).drop s = tail :=
  List.drop_left' (by rw [List.length_take]; exact Nat.min_eq_left h)

/-- A key freshly added by `addFresh` was not bound before. -/
theorem addFresh_key_not_in (nw : List (WordId × TWord)) :
    ∀ (m : List (WordId × TWord)) (k : WordId),
      k ∈ wordKeys (addFresh m nw) → k ∉ wordKeys m := by
  induction nw with
  | nil => intro m k hk; cases hk
  | cons kw rest ih =>
    intro m k hk
    obtain ⟨k0, w0⟩ := kw
    unfold addFresh at hk
    by_cases hmem : k0 ∈ wordKeys m
    · rw [if_pos hmem] at hk
      exact ih m k hk
    · rw [if_neg hmem] at hk
      unfold wordKeys at hk
      simp only [List.map_cons, List.mem_cons] at hk
      rcases hk with hk | hk
      · subst hk; exact hmem
      · intro hkm
        have := ih (m ++ [(k0, w0)]) k hk
        apply this
        unfold wordKeys at hkm ⊢
        simp only [List.map_append, List.mem_append]
        exact Or.inl hkm

theorem removeKeys_eq_self (m : List (WordId × TWord)) (ks : List WordId)
    (h : ∀ kw ∈ m, kw.1 ∉ ks) : removeKeys m ks = m := by
  unfold removeKeys
  rw [List.filter_eq_self]
  intro kw hkw
  simp only [decide_eq_true_eq]
  exact h kw hkw

theorem removeKeys_all (m : List (WordId × TWord)) (ks : List WordId)
    (h : ∀ kw ∈ m, kw.1 ∈ ks) : removeKeys m ks = [] := by
  unfold removeKeys
  rw [List.filter_eq_nil_iff]
  intro kw hkw
  simp only [decide_eq_true_eq, Decidable.not_not]
  exact h kw hkw

/-- Undoing the map growth of an insert restores the map exactly. -/
theorem removeKeys_addFresh (m nw : List (WordId × TWord)) :
    removeKeys (m ++ addFresh m nw) (wordKeys (addFresh m nw)) = m := by
  unfold removeKeys
  rw [List.filter_append]
  have h1 : m.filter (fun kw => decide (kw.1 ∉ wordKeys (addFresh m nw))) = m := by
    apply removeKeys_eq_self
    intro kw hkw hmem
    exact addFresh_key_not_in nw m kw.1 hmem (List.mem_map_of_mem Prod.fst hkw)
  have h2 : (addFresh m nw).filter
      (fun kw => decide (kw.1 ∉ wordKeys (addFresh m nw))) = [] := by
    apply removeKeys_all
    intro kw hkw
    exact List.mem_map_of_mem Prod.fst hkw
  rw [h1, h2, List.append_nil]

theorem lookup_replace_self (m : List (WordId × TWord)) (id : WordId)
    (w w' : TWord) (h : lookupWord m id = some w) :
    lookupWord (replaceWord m id w') id = some w' := by
  induction m with
  | nil => cases h
  | cons kw rest ih =>
    obtain ⟨k, v⟩ := kw
    by_cases hk : k = id
    · simp only [replaceWord, if_pos hk, lookupWord]
    · have h' : lookupWord rest id = some w := by
        simpa only [lookupWord, if_neg hk] using h
      simp only [replaceWord, if_neg hk, lookupWord]
      exact ih h'

theorem replace_replace (m : List (WordId × TWord)) (id : WordId)
    (w1 w2 : TWord) :
    replaceWord (replaceWord m id w1) id w2 = replaceWord m id w2 := by
  induction m with
  | nil => rfl
  | cons kw rest ih =>
    obtain ⟨k, v⟩ := kw
    unfold replaceWord
    by_cases hk : k = id
    · simp only [if_pos hk, replaceWord, if_pos hk]
    · simp only [if_neg hk, replaceWord, if_neg hk]
      rw [ih]

theorem replace_lookup_eq (m : List (WordId × TWord)) (id : WordId)
    (w : TWord) (h : lookupWord m id = some w) :
    replaceWord m id w = m := by
  induction m with
  | nil => rfl
  | cons kw rest ih =>
    obtain ⟨k, v⟩ := kw
    unfold lookupWord at h
    unfold replaceWord
    by_cases hk : k = id
    · rw [if_pos hk] at h
      cases h
      rw [if_pos hk]
    · rw [if_neg hk] at h
      rw [if_neg hk, ih h]

end Otter

namespace Otter

/-! ### Per-operation undo exactness -/

theorem deleteRange_undo (doc d : TranscriptDocument) (s c : Nat)
    (removed : List WordId) (h : deleteRange doc s c = .ok (d, removed)) :
    unapplyRec d (.reinsert s removed) = doc := by
  obtain ⟨m, o⟩ := doc
  unfold deleteRange at h
  by_cases hle : s + c ≤ o.length
  · rw [if_pos hle] at h
    cases h
    have hs : s ≤ o.length := le_trans (Nat.le_add_right s c) hle
    simp only [unapplyRec]
    congr 1
    rw [take_of_take_append _ _ _ hs, drop_of_take_append _ _ _ hs]
    exact splice_reassemble o s c
  · rw [if_neg hle] at h
    cases h

theorem insertRange_undo (doc d : TranscriptDocument) (i : Nat)
    (ids : List WordId) (nw : List (WordId × TWord)) (added : List WordId)
    (h : insertRange doc i ids nw = .ok (d, added)) :
    unapplyRec d (.removeInserted i ids.length added) = doc := by
  obtain ⟨m, o⟩ := doc
  simp only [insertRange] at h
  by_cases hle : i ≤ o.length
  · rw [if_pos hle] at h
    by_cases hdup : ∀ x ∈ ids, x ∉ o
    · rw [if_pos hdup] at h
      cases h
      simp only [unapplyRec]
      congr 1
      · exact removeKeys_addFresh m nw
      · have hlen : (o.take i ++ ids).length = i + ids.length := by
          rw [List.length_append, List.length_take, Nat.min_eq_left hle]
        rw [List.append_assoc, take_of_take_append _ _ _ hle, ← List.append_assoc,
          List.drop_left' hlen, List.take_append_drop]
    · rw [if_neg hdup] at h
      cases h
  · rw [if_neg hle] at h
    cases h

theorem moveRange_undo (doc d : TranscriptDocument) (f c t : Nat)
    (h : moveRange doc f c t = .ok d) :
    unapplyRec d (.moveBack t c f) = doc := by
  obtain ⟨m, o⟩ := doc
  simp only [moveRange] at h
  by_cases h1 : f + c ≤ o.length
  · rw [if_pos h1] at h
    by_cases h2 : t ≤ (o.take f ++ o.drop (f + c)).length
    · rw [if_pos h2] at h
      cases h
      have hf : f ≤ o.length := le_trans (Nat.le_add_right f c) h1
      have hblk : ((o.drop f).take c).length = c := by
        rw [List.length_take, List.length_drop]
        exact Nat.min_eq_left (Nat.le_sub_of_add_le (by rw [Nat.add_comm]; exact h1))
      have hAlen : ((o.take f ++ o.drop (f + c)).take t).length = t := by
        rw [List.length_take]
        exact Nat.min_eq_left h2
      simp only [unapplyRec]
      congr 1
      have h3 : ((o.take f ++ o.drop (f + c)).take t ++ (o.drop f).take c ++
          (o.take f ++ o.drop (f + c)).drop t).take t
          = (o.take f ++ o.drop (f + c)).take t := by
        rw [List.append_assoc]
        exact List.take_left' hAlen
      have h4 : ((o.take f ++ o.drop (f + c)).take t ++ (o.drop f).take c ++
          (o.take f ++ o.drop (f + c)).drop t).drop t
          = (o.drop f).take c ++ (o.take f ++ o.drop (f + c)).drop t := by
        rw [List.append_assoc]
        exact List.drop_left' hAlen
      have h5 : ((o.take f ++ o.drop (f + c)).take t ++ (o.drop f).take c ++
          (o.take f ++ o.drop (f + c)).drop t).drop (t + c)
          = (o.take f ++ o.drop (f + c)).drop t := by
        apply List.drop_left'
        rw [List.length_append, hAlen, hblk]
      rw [h3, h4, h5, List.take_left' hblk,
        List.take_append_drop t (o.take f ++ o.drop (f + c)),
        take_of_take_append _ _ _ hf, drop_of_take_append _ _ _ hf]
      exact splice_reassemble o f c
    · rw [if_neg h2] at h
      cases h
  · rw [if_neg h1] at h
    cases h

end Otter

namespace Otter

theorem updateSpan_undo (doc d : TranscriptDocument) (id : WordId)
    (ns ne : Nat) (w : TWord) (h : updateSpan doc id ns ne = .ok (d, w)) :
    unapplyRec d (.restoreSpan id w.startSample w.endSample) = doc := by
  obtain ⟨m, o⟩ := doc
  unfold updateSpan at h
  cases hl : lookupWord m id with
  | none =>
    rw [hl] at h
    cases h
  | some w0 =>
    rw [hl] at h
    dsimp only at h
    by_cases hv : ns < ne
    · rw [if_pos hv] at h
      simp only [Except.ok.injEq, Prod.mk.injEq] at h
      obtain ⟨hd, hw⟩ := h
      subst hd
      subst hw
      have hl2 : lookupWord (replaceWord m id ⟨w0.text, ns, ne⟩) id
          = some ⟨w0.text, ns, ne⟩ := lookup_replace_self m id w0 _ hl
      simp only [unapplyRec, hl2]
      congr 1
      rw [replace_replace]
      have hw0 : (⟨w0.text, w0.startSample, w0.endSample⟩ : TWord) = w0 := by
        cases w0
        rfl
      rw [hw0]
      exact replace_lookup_eq m id w0 hl
    · rw [if_neg hv] at h
      cases h

theorem updateText_undo (doc d : TranscriptDocument) (id : WordId)
    (newText : String) (w : TWord) (h : updateText doc id newText = .ok (d, w)) :
    unapplyRec d (.restoreText id w.text) = doc := by
  obtain ⟨m, o⟩ := doc
  unfold updateText at h
  cases hl : lookupWord m id with
  | none =>
    rw [hl] at h
    cases h
  | some w0 =>
    rw [hl] at h
    dsimp only at h
    simp only [Except.ok.injEq, Prod.mk.injEq] at h
    obtain ⟨hd, hw⟩ := h
    subst hd
    subst hw
    have hl2 : lookupWord (replaceWord m id ⟨newText, w0.startSample, w0.endSample⟩) id
        = some ⟨newText, w0.startSample, w0.endSample⟩ := lookup_replace_self m id w0 _ hl
    simp only [unapplyRec, hl2]
    congr 1
    rw [replace_replace]
    have hw0 : (⟨w0.text, w0.startSample, w0.endSample⟩ : TWord) = w0 := by
      cases w0
      rfl
    rw [hw0]
    exact replace_lookup_eq m id w0 hl

end Otter

namespace Otter

mutual

/-- A successful forward mutation is undone exactly by its captured
reverse record. -/
theorem applyCmd_unapply (doc : TranscriptDocument) (c : Command)
    (d : TranscriptDocument) (r : UndoRec)
    (h : applyCmd doc c = .ok (d, r)) : unapplyRec d r = doc := by
  cases c with
  | deleteWords s cnt =>
    simp only [applyCmd] at h
    cases hop : deleteRange doc s cnt with
    | error e =>
      rw [hop] at h
      cases h
    | ok p =>
      obtain ⟨d0, removed⟩ := p
      rw [hop] at h
      cases h
      exact deleteRange_undo doc _ s cnt _ hop
  | insertWords i ids nw =>
    simp only [applyCmd] at h
    cases hop : insertRange doc i ids nw with
    | error e =>
      rw [hop] at h
      cases h
    | ok p =>
      obtain ⟨d0, added⟩ := p
      rw [hop] at h
      cases h
      exact insertRange_undo doc _ i ids nw _ hop
  | moveWords f cnt t =>
    simp only [applyCmd] at h
    cases hop : moveRange doc f cnt t with
    | error e =>
      rw [hop] at h
      cases h
    | ok d0 =>
      rw [hop] at h
      cases h
      exact moveRange_undo doc _ f cnt t hop
  | updateWordSpan id ns ne =>
    simp only [applyCmd] at h
    cases hop : updateSpan doc id ns ne with
    | error e =>
      rw [hop] at h
      cases h
    | ok p =>
      obtain ⟨d0, w0⟩ := p
      rw [hop] at h
      cases h
      exact updateSpan_undo doc _ id ns ne _ hop
  | updateWordText id newText =>
    simp only [applyCmd] at h
    cases hop : updateText doc id newText with
    | error e =>
      rw [hop] at h
      cases h
    | ok p =>
      obtain ⟨d0, w0⟩ := p
      rw [hop] at h
      cases h
      exact updateText_undo doc _ id newText _ hop
  | composite cmds =>
    simp only [applyCmd] at h
    cases hop : applyCmds doc cmds with
    | error e =>
      rw [hop] at h
      cases h
    | ok p =>
      obtain ⟨d0, recs⟩ := p
      rw [hop] at h
      cases h
      simp only [unapplyRec]
      exact applyCmds_unapply doc cmds _ _ hop

/-- A successful command sequence is undone exactly by unapplying its
records in reverse order. -/
theorem applyCmds_unapply (doc : TranscriptDocument) (cs : List Command)
    (d : TranscriptDocument) (rs : List UndoRec)
    (h : applyCmds doc cs = .ok (d, rs)) : unapplyRecs d rs = doc := by
  cases cs with
  | nil =>
    simp only [applyCmds] at h
    cases h
    rfl
  | cons c cs' =>
    simp only [applyCmds] at h
    cases h1 : applyCmd doc c with
    | error e =>
      rw [h1] at h
      cases h
    | ok p =>
      obtain ⟨d1, r⟩ := p
      rw [h1] at h
      dsimp only at h
      cases h2 : applyCmds d1 cs' with
      | error e =>
        rw [h2] at h
        cases h
      | ok q =>
        obtain ⟨d2, rs'⟩ := q
        rw [h2] at h
        cases h
        simp only [unapplyRecs]
        rw [applyCmds_unapply d1 cs' _ _ h2]
        exact applyCmd_unapply doc c d1 r h1

end

end Otter

namespace Otter

/-- C3: after any sequence of valid commands has brought the engine to
state `s`, a further successful `apply` of any command followed
immediately by `undo` succeeds and restores `wordsById` and `order`
byte-identically (structural equality of the insertion-ordered map and
the order list) to their pre-apply state. -/
theorem undo_after_apply (init : Engine) (cs : List Command) (s : Engine)
    (c : Command) (s' : Engine)
    (_hrun : runCommands init cs = .ok s)
    (happly : applyEngine s c = .ok s') :
    ∃ s'', undoEngine s' = .ok s'' ∧
      s''.doc.wordsById = s.doc.wordsById ∧ s''.doc.order = s.doc.order := by
  unfold applyEngine at happly
  cases hap : applyCmd s.doc c with
  | error e =>
    rw [hap] at happly
    cases happly
  | ok p =>
    obtain ⟨d, r⟩ := p
    rw [hap] at happly
    cases happly
    refine ⟨⟨unapplyRec d r, s.undoStack, [c]⟩, rfl, ?_, ?_⟩
    · rw [applyCmd_unapply s.doc c d r hap]
    · rw [applyCmd_unapply s.doc c d r hap]

/-- A small two-word demo document. -/
def demoDoc : TranscriptDocument :=
  ⟨[(0, ⟨"hello", 0, 10⟩), (1, ⟨"world", 10, 20⟩)], [0, 1]⟩

/-- C3 (witness): starting from the demo document, applying
`deleteWords 0 1` succeeds, and the immediate undo restores `wordsById`
and `order` exactly. -/
theorem undo_after_apply_witness :
    runCommands ⟨demoDoc, [], []⟩ [] = .ok ⟨demoDoc, [], []⟩ ∧
    ∃ s', applyEngine ⟨demoDoc, [], []⟩ (.deleteWords 0 1) = .ok s' ∧
      ∃ s'', undoEngine s' = .ok s'' ∧
        s''.doc.wordsById = demoDoc.wordsById ∧ s''.doc.order = demoDoc.order := by
  refine ⟨rfl,
    ⟨⟨demoDoc.wordsById, [1]⟩, [(.deleteWords 0 1, .reinsert 0 [0])], []⟩, rfl, ?_⟩
  exact undo_after_apply ⟨demoDoc, [], []⟩ [] ⟨demoDoc, [], []⟩ (.deleteWords 0 1)
    ⟨⟨demoDoc.wordsById, [1]⟩, [(.deleteWords 0 1, .reinsert 0 [0])], []⟩ rfl rfl

end Otter
